import Mathlib

set_option maxHeartbeats 1000000

/-!
Shallow embedding of the TTL cache of `src/cache.ts` (compiled form in
`src/collection.js`, class `Cache`).

Modelling choices:
* Timestamps (`Date.valueOf()`), `ttl`, `capacity` and `interval` are `Int`
  (the claims only concern integral values; JS numbers are totally ordered
  and the code only compares, adds and subtracts them).
* The JS `Map<string, [number, T]>` is an association list with unique keys
  (`MapT`); `map.size` is its length.  The JS array `list` is a Lean `List`;
  `list.push` is append and `list.splice(0, n)` is `List.drop n`.
* `assert` failures are modelled by `Option`: the constructor and `evict`
  (whose loop asserts `!isNil(item)` on each ledger read) return `none`
  exactly when the corresponding JS assertion would throw.
* The optional `time` argument is always passed explicitly (the claims
  quantify over supplied times); `interval` keeps its `?? 10000` default.
* `undefined` results are `Option.none`; cached values are modelled as
  never nullish, so `isNil(this.get(key, now))` is `Option.isNone`.
-/

/-- The JS `Map<string, [number, V]>`: an association list
`key ↦ (expiration, value)`. -/
abbrev MapT (V : Type) := List (String × Int × V)

/-- `Map.prototype.get`. -/
def mget {V : Type} : MapT V → String → Option (Int × V)
  | [], _ => none
  | p :: rest, k => if p.1 = k then some p.2 else mget rest k

/-- `Map.prototype.set`: overwrite in place when the key is present,
append otherwise. -/
def mset {V : Type} : MapT V → String → Int × V → MapT V
  | [], k, item => [(k, item)]
  | p :: rest, k, item => if p.1 = k then (k, item) :: rest else p :: mset rest k item

/-- `Map.prototype.delete`. -/
def mdel {V : Type} : MapT V → String → MapT V
  | [], _ => []
  | p :: rest, k => if p.1 = k then mdel rest k else p :: mdel rest k

/-- The state of `class Cache<T>` from `src/cache.ts`. -/
structure Cache (V : Type) where
  ttl : Int
  capacity : Int
  interval : Int
  last : Option Int
  map : MapT V
  list : List (Int × String)
deriving DecidableEq

namespace Cache

/-- The constructor: `assert(ttl > 0 && capacity > 0)` throws (here: `none`)
unless both bounds are positive; `interval` defaults to `10000`. -/
def new {V : Type} (t c : Int) (i : Option Int) : Option (Cache V) :=
  if 0 < t ∧ 0 < c then
    some { ttl := t, capacity := c, interval := i.getD 10000,
           last := none, map := [], list := [] }
  else none

/-- `isFull(): boolean { return this.map.size >= this.capacity }`. -/
def isFull {V : Type} (c : Cache V) : Bool := c.capacity ≤ (c.map.length : Int)

/-- The shared per-ledger-entry step of `scrub` and `evict`:
`const value = this.map.get(key); if (!isNil(value) && value[0] === expiration)
this.map.delete(key)`. -/
def stepDelete {V : Type} (m : MapT V) (e : Int) (k : String) : MapT V :=
  match mget m k with
  | some item => if item.1 = e then mdel m k else m
  | none => m

/-- The scan loop of `scrub`: walk the ledger while `expiration <= timestamp`,
applying the guarded delete, and count the consumed prefix. -/
def scrubScan {V : Type} (ts : Int) : MapT V → List (Int × String) → MapT V × Nat
  | m, [] => (m, 0)
  | m, (e, k) :: rest =>
    if ts < e then (m, 0)
    else
      let s := scrubScan ts (stepDelete m e k) rest
      (s.1, s.2 + 1)

/-- `scrub(time?)`: rate-limited by `interval`, then sweep the expired ledger
prefix of the ledger, splice it off, and record `last = now`. -/
def scrub {V : Type} (c : Cache V) (time : Int) : Cache V :=
  if time - (c.last.getD 0) < c.interval then c
  else
    let s := scrubScan time c.map c.list
    { c with map := s.1, list := c.list.drop s.2, last := some time }

/-- `get(key, time?)`: scrub, then look up; a hit needs `expiration > now`,
otherwise the entry is deleted on read.  Returns the mutated cache and the
JS return value. -/
def get {V : Type} (c : Cache V) (k : String) (time : Int) : Cache V × Option V :=
  let c1 := c.scrub time
  match mget c1.map k with
  | some item =>
    if time < item.1 then (c1, some item.2)
    else ({ c1 with map := mdel c1.map k }, none)
  | none => (c1, none)

/-- The loop of `evict()`: while `isFull()`, read `list[size]`
(`assert(!isNil(item))` — `none` on an out-of-bounds read), apply the guarded
delete, advance.  Returns the surviving map and the consumed prefix length. -/
def evictScan {V : Type} (cap : Int) : MapT V → List (Int × String) → Option (MapT V × Nat)
  | m, [] => if cap ≤ (m.length : Int) then none else some (m, 0)
  | m, (e, k) :: rest =>
    if cap ≤ (m.length : Int) then
      (evictScan cap (stepDelete m e k) rest).map fun s => (s.1, s.2 + 1)
    else some (m, 0)

/-- `evict()`: run the eviction scan and splice the consumed prefix. -/
def evict {V : Type} (c : Cache V) : Option (Cache V) :=
  (evictScan c.capacity c.map c.list).map fun s =>
    { c with map := s.1, list := c.list.drop s.2 }

/-- `set(key, value, time?)`: scrub; if full and the key is not live
(`isNil(this.get(key, now))`, with `get`'s side effects), evict; then insert
`(now + ttl, value)` into the map and append `(now + ttl, key)` to the
ledger. -/
def set {V : Type} (c : Cache V) (k : String) (v : V) (time : Int) : Option (Cache V) :=
  let c1 := c.scrub time
  let step : Option (Cache V) :=
    if c1.isFull then
      let r := c1.get k time
      if r.2.isNone then r.1.evict else some r.1
    else some c1
  step.map fun c2 =>
    { c2 with map := mset c2.map k (time + c.ttl, v),
              list := c2.list ++ [(time + c.ttl, k)] }

end Cache

/-- One external cache call: `set` or `get` with an explicit key, value and
time. -/
inductive Op (V : Type) where
  | setOp (k : String) (v : V) (t : Int)
  | getOp (k : String) (t : Int)
deriving DecidableEq

/-- Run a sequence of cache calls, threading the mutated cache;
`none` if some call's internal assertion fails. -/
def runOps {V : Type} (c : Cache V) : List (Op V) → Option (Cache V)
  | [] => some c
  | Op.setOp k v t :: rest => (c.set k v t).bind fun c' => runOps c' rest
  | Op.getOp k t :: rest => runOps (c.get k t).1 rest

/-- Run a sequence of `set` calls, all at the same supplied time. -/
def setAll {V : Type} (c : Cache V) (t : Int) : List (String × V) → Option (Cache V)
  | [] => some c
  | (k, v) :: rest => (c.set k v t).bind fun c' => setAll c' t rest

/-- The keys of the association list are pairwise distinct (true of any JS
`Map`). -/
def keysND {V : Type} (m : MapT V) : Prop := (m.map Prod.fst).Nodup

/-- The reachable-state invariant: positive configuration, distinct map keys,
every map entry `key ↦ (expiration, value)` has a matching ledger entry
`(expiration, key)`, and the map is within capacity. -/
def CacheInv {V : Type} (c : Cache V) : Prop :=
  0 < c.ttl ∧ 1 ≤ c.capacity ∧ keysND c.map ∧
  (∀ p ∈ c.map, (p.2.1, p.1) ∈ c.list) ∧ (c.map.length : Int) ≤ c.capacity

instance decKeysND {V : Type} (m : MapT V) : Decidable (keysND m) :=
  decidable_of_iff ((m.map Prod.fst).Nodup) Iff.rfl

instance decCacheInv {V : Type} (c : Cache V) : Decidable (CacheInv c) :=
  decidable_of_iff
    (0 < c.ttl ∧ 1 ≤ c.capacity ∧ (c.map.map Prod.fst).Nodup ∧
      (∀ p ∈ c.map, (p.2.1, p.1) ∈ c.list) ∧ (c.map.length : Int) ≤ c.capacity)
    Iff.rfl

/-- The map contents after a run of `set` calls on distinct fresh keys at a
single time: every key carries the same expiration `e` and its own value. -/
def entriesOf {V : Type} (e : Int) (kvs : List (String × V)) : MapT V :=
  kvs.map fun q => (q.1, (e, q.2))

/-- The matching ledger contents for `entriesOf`. -/
def ledgerOf {V : Type} (e : Int) (kvs : List (String × V)) :
    List (Int × String) :=
  kvs.map fun q => (e, q.1)

/-! ### Basic lemmas about the association-list map operations -/

theorem mget_eq_none_iff {V : Type} {m : MapT V} {k : String} :
    mget m k = none ↔ ∀ p ∈ m, p.1 ≠ k := by
  induction m with
  | nil => simp [mget]
  | cons p rest ih =>
    by_cases h : p.1 = k <;> simp [mget, h, ih]

theorem mget_mem {V : Type} {m : MapT V} {k : String} {it : Int × V}
    (h : mget m k = some it) : (k, it) ∈ m := by
  induction m with
  | nil => simp [mget] at h
  | cons p rest ih =>
    by_cases hk : p.1 = k
    · simp only [mget, if_pos hk] at h
      have h2 := Option.some.inj h
      subst h2
      exact List.mem_cons.mpr (Or.inl (by rw [← hk]))
    · simp only [mget, if_neg hk] at h
      exact List.mem_cons_of_mem _ (ih h)

theorem mem_mget {V : Type} {m : MapT V} (hnd : keysND m) {k : String}
    {it : Int × V} (h : (k, it) ∈ m) : mget m k = some it := by
  induction m with
  | nil => simp at h
  | cons p rest ih =>
    simp only [keysND, List.map_cons, List.nodup_cons] at hnd
    rcases List.mem_cons.mp h with h1 | h1
    · subst h1
      simp [mget]
    · have hk : p.1 ≠ k := by
        intro hpk
        exact hnd.1 (hpk ▸ (List.mem_map.mpr ⟨(k, it), h1, rfl⟩))
      simp [mget, hk]
      exact ih hnd.2 h1

theorem mdel_mem_iff {V : Type} {m : MapT V} {k : String} {p : String × Int × V} :
    p ∈ mdel m k ↔ p ∈ m ∧ p.1 ≠ k := by
  induction m with
  | nil => simp [mdel]
  | cons q rest ih =>
    by_cases h : q.1 = k
    · simp only [mdel, if_pos h, ih, List.mem_cons]
      constructor
      · rintro ⟨h1, h2⟩
        exact ⟨Or.inr h1, h2⟩
      · rintro ⟨h1 | h1, h2⟩
        · exact absurd (h1 ▸ h) h2
        · exact ⟨h1, h2⟩
    · simp only [mdel, if_neg h, List.mem_cons, ih]
      constructor
      · rintro (rfl | ⟨h1, h2⟩)
        · exact ⟨Or.inl rfl, h⟩
        · exact ⟨Or.inr h1, h2⟩
      · rintro ⟨rfl | h1, h2⟩
        · exact Or.inl rfl
        · exact Or.inr ⟨h1, h2⟩

theorem mdel_sublist {V : Type} (m : MapT V) (k : String) :
    List.Sublist (mdel m k) m := by
  induction m with
  | nil => simp [mdel]
  | cons q rest ih =>
    by_cases h : q.1 = k
    · simpa [mdel, h] using ih.trans (List.sublist_cons_self _ _)
    · simpa [mdel, h] using ih.cons₂ q

theorem mget_mdel_self {V : Type} (m : MapT V) (k : String) :
    mget (mdel m k) k = none := by
  rw [mget_eq_none_iff]
  intro p hp
  exact (mdel_mem_iff.mp hp).2

theorem mget_mdel_ne {V : Type} (m : MapT V) {k k' : String} (h : k' ≠ k) :
    mget (mdel m k) k' = mget m k' := by
  induction m with
  | nil => simp [mdel]
  | cons q rest ih =>
    by_cases hq : q.1 = k
    · have hq' : q.1 ≠ k' := fun hc => h (hc ▸ hq)
      simp only [mdel, if_pos hq, mget, if_neg hq', ih]
    · by_cases hq' : q.1 = k'
      · simp only [mdel, if_neg hq, mget, if_pos hq']
      · simp only [mdel, if_neg hq, mget, if_neg hq', ih]

theorem mdel_length_lt {V : Type} {m : MapT V} {k : String} {it : Int × V}
    (h : mget m k = some it) : (mdel m k).length < m.length := by
  induction m with
  | nil => simp [mget] at h
  | cons q rest ih =>
    by_cases hq : q.1 = k
    · simp only [mdel, if_pos hq, List.length_cons]
      exact Nat.lt_succ_of_le (mdel_sublist rest k).length_le
    · simp only [mget, if_neg hq] at h
      simp only [mdel, if_neg hq, List.length_cons]
      exact Nat.succ_lt_succ (ih h)

theorem mdel_of_mget_none {V : Type} {m : MapT V} {k : String}
    (h : mget m k = none) : mdel m k = m := by
  induction m with
  | nil => simp [mdel]
  | cons q rest ih =>
    by_cases hq : q.1 = k
    · simp [mget, hq] at h
    · simp only [mget, if_neg hq] at h
      simp [mdel, hq, ih h]

theorem mget_mset_self {V : Type} (m : MapT V) (k : String) (it : Int × V) :
    mget (mset m k it) k = some it := by
  induction m with
  | nil => simp [mset, mget]
  | cons q rest ih =>
    by_cases hq : q.1 = k
    · simp [mset, hq, mget]
    · simp [mset, hq, mget, ih]

theorem mget_mset_ne {V : Type} (m : MapT V) {k k' : String} (it : Int × V)
    (h : k' ≠ k) : mget (mset m k it) k' = mget m k' := by
  have hk : k ≠ k' := fun hc => h hc.symm
  induction m with
  | nil => simp [mset, mget, hk]
  | cons q rest ih =>
    by_cases hq : q.1 = k
    · have hq' : q.1 ≠ k' := fun hc => h (hc ▸ hq)
      simp only [mset, if_pos hq, mget, if_neg hq', if_neg hk]
    · by_cases hq' : q.1 = k'
      · simp only [mset, if_neg hq, mget, if_pos hq']
      · simp only [mset, if_neg hq, mget, if_neg hq', ih]

theorem mset_length {V : Type} (m : MapT V) (k : String) (it : Int × V) :
    (mset m k it).length =
      if (mget m k).isSome then m.length else m.length + 1 := by
  induction m with
  | nil => simp [mset, mget]
  | cons q rest ih =>
    by_cases hq : q.1 = k
    · simp [mset, hq, mget]
    · simp only [mset, if_neg hq, mget, List.length_cons, ih]
      by_cases hrest : (mget rest k).isSome <;> simp [hrest]

theorem mset_mem {V : Type} {m : MapT V} {k : String} {it : Int × V}
    {p : String × Int × V} (h : p ∈ mset m k it) : p = (k, it) ∨ p ∈ m := by
  induction m with
  | nil => simpa [mset] using h
  | cons q rest ih =>
    by_cases hq : q.1 = k
    · simp only [mset, if_pos hq, List.mem_cons] at h
      rcases h with h | h
      · exact Or.inl h
      · exact Or.inr (List.mem_cons_of_mem _ h)
    · simp only [mset, if_neg hq, List.mem_cons] at h
      rcases h with h | h
      · exact Or.inr (h ▸ List.mem_cons_self _ _)
      · rcases ih h with h1 | h1
        · exact Or.inl h1
        · exact Or.inr (List.mem_cons_of_mem _ h1)

theorem mset_keys_nd {V : Type} {m : MapT V} (hnd : keysND m) (k : String)
    (it : Int × V) : keysND (mset m k it) := by
  induction m with
  | nil => simp [mset, keysND]
  | cons q rest ih =>
    simp only [keysND, List.map_cons, List.nodup_cons] at hnd
    by_cases hq : q.1 = k
    · simp only [mset, if_pos hq, keysND, List.map_cons, List.nodup_cons]
      exact ⟨hq ▸ hnd.1, hnd.2⟩
    · simp only [mset, if_neg hq, keysND, List.map_cons, List.nodup_cons]
      refine ⟨fun hc => ?_, ih hnd.2⟩
      rcases List.mem_map.mp hc with ⟨p, hp, hpq⟩
      rcases mset_mem hp with h1 | h1
      · have hpk : p.1 = k := by rw [h1]
        exact hq (hpq.symm.trans hpk)
      · exact hnd.1 (List.mem_map.mpr ⟨p, h1, hpq⟩)

theorem mset_of_mget_none {V : Type} {m : MapT V} {k : String}
    (h : mget m k = none) (it : Int × V) : mset m k it = m ++ [(k, it)] := by
  induction m with
  | nil => simp [mset]
  | cons q rest ih =>
    by_cases hq : q.1 = k
    · simp [mget, hq] at h
    · simp only [mget, if_neg hq] at h
      simp [mset, hq, ih h]

theorem keysND_sublist {V : Type} {m m' : MapT V} (hs : List.Sublist m' m)
    (hnd : keysND m) : keysND m' :=
  hnd.sublist (hs.map Prod.fst)

theorem mget_none_of_sublist {V : Type} {m m' : MapT V} (hs : List.Sublist m' m)
    {k : String} (h : mget m k = none) : mget m' k = none := by
  rw [mget_eq_none_iff] at h ⊢
  exact fun p hp => h p (hs.subset hp)

theorem mget_sublist_cases {V : Type} {m m' : MapT V} (hnd : keysND m)
    (hs : List.Sublist m' m) (k : String) :
    mget m' k = none ∨ mget m' k = mget m k := by
  cases hg : mget m' k with
  | none => exact Or.inl rfl
  | some it => exact Or.inr ((mem_mget hnd (hs.subset (mget_mem hg))).symm)

/-! ### The guarded delete shared by `scrub` and `evict` -/

theorem stepDelete_of_none {V : Type} {m : MapT V} {k : String}
    (hg : mget m k = none) (e : Int) : Cache.stepDelete m e k = m := by
  simp [Cache.stepDelete, hg]

theorem stepDelete_of_mismatch {V : Type} {m : MapT V} {k : String}
    {it : Int × V} (hg : mget m k = some it) {e : Int} (h : it.1 ≠ e) :
    Cache.stepDelete m e k = m := by
  simp [Cache.stepDelete, hg, h]

theorem stepDelete_of_match {V : Type} {m : MapT V} {k : String} {e : Int}
    {v : V} (hg : mget m k = some (e, v)) :
    Cache.stepDelete m e k = mdel m k := by
  simp [Cache.stepDelete, hg]

theorem stepDelete_eq_cases {V : Type} (m : MapT V) (e : Int) (k : String) :
    Cache.stepDelete m e k = m ∨ Cache.stepDelete m e k = mdel m k := by
  cases hg : mget m k with
  | none => exact Or.inl (stepDelete_of_none hg e)
  | some it =>
    by_cases h : it.1 = e
    · refine Or.inr ?_
      obtain ⟨e1, v⟩ := it
      cases h
      exact stepDelete_of_match hg
    · exact Or.inl (stepDelete_of_mismatch hg h)

theorem stepDelete_sublist {V : Type} (m : MapT V) (e : Int) (k : String) :
    List.Sublist (Cache.stepDelete m e k) m := by
  rcases stepDelete_eq_cases m e k with h | h
  · rw [h]
  · rw [h]
    exact mdel_sublist m k

theorem stepDelete_mem {V : Type} {m : MapT V} (hnd : keysND m) {e : Int}
    {k : String} {p : String × Int × V} (hp : p ∈ Cache.stepDelete m e k) :
    p ∈ m ∧ ¬(p.1 = k ∧ p.2.1 = e) := by
  have hpm : p ∈ m := (stepDelete_sublist m e k).subset hp
  refine ⟨hpm, ?_⟩
  rintro ⟨hk, he⟩
  have hg : mget m k = some p.2 := by
    refine mem_mget hnd ?_
    rw [← hk]
    exact hpm
  have hdel : Cache.stepDelete m e k = mdel m k := by
    simp [Cache.stepDelete, hg, he]
  rw [hdel] at hp
  exact (mdel_mem_iff.mp hp).2 hk

theorem stepDelete_mget_ne {V : Type} (m : MapT V) (e : Int) {k k' : String}
    (h : k' ≠ k) : mget (Cache.stepDelete m e k) k' = mget m k' := by
  rcases stepDelete_eq_cases m e k with h1 | h1
  · rw [h1]
  · rw [h1]
    exact mget_mdel_ne m h

/-! ### Unfolding equations for the scan loops -/

theorem scrubScan_nil {V : Type} (ts : Int) (m : MapT V) :
    Cache.scrubScan ts m [] = (m, 0) := rfl

theorem scrubScan_cons_stop {V : Type} {ts e : Int} (h : ts < e) (m : MapT V)
    (k : String) (rest : List (Int × String)) :
    Cache.scrubScan ts m ((e, k) :: rest) = (m, 0) := by
  simp [Cache.scrubScan, h]

theorem scrubScan_cons_go {V : Type} {ts e : Int} (h : ¬ ts < e) (m : MapT V)
    (k : String) (rest : List (Int × String)) :
    Cache.scrubScan ts m ((e, k) :: rest) =
      ((Cache.scrubScan ts (Cache.stepDelete m e k) rest).1,
       (Cache.scrubScan ts (Cache.stepDelete m e k) rest).2 + 1) := by
  simp [Cache.scrubScan, h]

theorem evictScan_nil {V : Type} (cap : Int) (m : MapT V) :
    Cache.evictScan cap m [] =
      if cap ≤ (m.length : Int) then none else some (m, 0) := rfl

theorem evictScan_cons_full {V : Type} {cap : Int} {m : MapT V}
    (h : cap ≤ (m.length : Int)) (e : Int) (k : String)
    (rest : List (Int × String)) :
    Cache.evictScan cap m ((e, k) :: rest) =
      (Cache.evictScan cap (Cache.stepDelete m e k) rest).map
        fun s => (s.1, s.2 + 1) := by
  simp [Cache.evictScan, h]

theorem evictScan_cons_stop {V : Type} {cap : Int} {m : MapT V}
    (h : ¬ cap ≤ (m.length : Int)) (e : Int) (k : String)
    (rest : List (Int × String)) :
    Cache.evictScan cap m ((e, k) :: rest) = some (m, 0) := by
  simp [Cache.evictScan, h]

/-! ### Properties of the scrub scan -/

theorem scrubScan_sublist {V : Type} (ts : Int) (m : MapT V)
    (l : List (Int × String)) :
    List.Sublist (Cache.scrubScan ts m l).1 m := by
  induction l generalizing m with
  | nil => exact List.Sublist.refl m
  | cons q rest ih =>
    obtain ⟨e, k⟩ := q
    by_cases h : ts < e
    · rw [scrubScan_cons_stop h]
    · rw [scrubScan_cons_go h]
      exact (ih (Cache.stepDelete m e k)).trans (stepDelete_sublist m e k)

theorem scrubScan_count_le {V : Type} (ts : Int) (m : MapT V)
    (l : List (Int × String)) : (Cache.scrubScan ts m l).2 ≤ l.length := by
  induction l generalizing m with
  | nil => exact Nat.le_refl 0
  | cons q rest ih =>
    obtain ⟨e, k⟩ := q
    by_cases h : ts < e
    · rw [scrubScan_cons_stop h]
      exact Nat.zero_le _
    · rw [scrubScan_cons_go h]
      exact Nat.succ_le_succ (ih _)

/-- Processing one ledger entry keeps every surviving map entry matched by a
ledger entry further on: the guard deletes exactly the map entries matching
the consumed ledger entry. -/
theorem stepDelete_corr {V : Type} {m : MapT V} (hnd : keysND m) {e : Int}
    {k : String} {rest : List (Int × String)}
    (hc : ∀ p ∈ m, (p.2.1, p.1) ∈ (e, k) :: rest) :
    ∀ p ∈ Cache.stepDelete m e k, (p.2.1, p.1) ∈ rest := by
  intro p hp
  obtain ⟨hpm, hnm⟩ := stepDelete_mem hnd hp
  rcases List.mem_cons.mp (hc p hpm) with h1 | h1
  · have he : p.2.1 = e := congrArg Prod.fst h1
    have hk : p.1 = k := congrArg Prod.snd h1
    exact absurd ⟨hk, he⟩ hnm
  · exact h1

theorem scrubScan_corr {V : Type} {ts : Int} {m : MapT V}
    {l : List (Int × String)} (hnd : keysND m)
    (hc : ∀ p ∈ m, (p.2.1, p.1) ∈ l) :
    ∀ p ∈ (Cache.scrubScan ts m l).1,
      (p.2.1, p.1) ∈ l.drop (Cache.scrubScan ts m l).2 := by
  induction l generalizing m with
  | nil => exact hc
  | cons q rest ih =>
    obtain ⟨e, k⟩ := q
    by_cases h : ts < e
    · rw [scrubScan_cons_stop h]
      exact hc
    · rw [scrubScan_cons_go h]
      have hnd' := keysND_sublist (stepDelete_sublist m e k) hnd
      have hc' := stepDelete_corr hnd hc
      simpa [List.drop_succ_cons] using ih hnd' hc'

/-- A still-live map entry (expiration beyond the sweep time) survives the
scrub scan untouched, even when the ledger holds stale entries for its key. -/
theorem scrubScan_mget_live {V : Type} {ts : Int} {m : MapT V} (hnd : keysND m)
    {k : String} {it : Int × V} (hg : mget m k = some it) (hl : ts < it.1)
    (l : List (Int × String)) :
    mget (Cache.scrubScan ts m l).1 k = some it := by
  induction l generalizing m with
  | nil => exact hg
  | cons q rest ih =>
    obtain ⟨e, k'⟩ := q
    by_cases h : ts < e
    · rw [scrubScan_cons_stop h]
      exact hg
    · rw [scrubScan_cons_go h]
      by_cases hk : k' = k
      · subst hk
        have hne : it.1 ≠ e := fun hc => h (hc ▸ hl)
        rw [stepDelete_of_mismatch hg hne]
        exact ih hnd hg
      · have hnd' := keysND_sublist (stepDelete_sublist m e k') hnd
        have hg' : mget (Cache.stepDelete m e k') k = some it := by
          rw [stepDelete_mget_ne m e (fun hc => hk hc.symm)]
          exact hg
        exact ih hnd' hg'

/-- When every map entry is still live at the sweep time, the scrub scan
leaves the map unchanged (it only discards stale ledger entries). -/
theorem scrubScan_all_live {V : Type} {ts : Int} {m : MapT V}
    (hl : ∀ p ∈ m, ts < p.2.1) (l : List (Int × String)) :
    (Cache.scrubScan ts m l).1 = m := by
  induction l generalizing m with
  | nil => rfl
  | cons q rest ih =>
    obtain ⟨e, k⟩ := q
    by_cases h : ts < e
    · rw [scrubScan_cons_stop h]
    · rw [scrubScan_cons_go h]
      have hstep : Cache.stepDelete m e k = m := by
        cases hg : mget m k with
        | none => exact stepDelete_of_none hg e
        | some it =>
          have hlive : ts < it.1 := hl _ (mget_mem hg)
          exact stepDelete_of_mismatch hg (fun hc => h (hc ▸ hlive))
      rw [hstep]
      exact ih hl

/-- When every ledger entry is unexpired, the scrub scan stops at once. -/
theorem scrubScan_of_fresh {V : Type} (ts : Int) (m : MapT V)
    {l : List (Int × String)} (h : ∀ p ∈ l, ts < p.1) :
    Cache.scrubScan ts m l = (m, 0) := by
  cases l with
  | nil => rfl
  | cons q rest =>
    obtain ⟨e, k⟩ := q
    exact scrubScan_cons_stop (h (e, k) (List.mem_cons_self _ _)) m k rest

/-- A leading ledger entry whose expiration has passed and still matches the
map is purged by the scrub scan. -/
theorem scrubScan_head_purges {V : Type} {ts e : Int} {m : MapT V}
    {k : String} {v : V} (hg : mget m k = some (e, v))
    (he : e ≤ ts) (rest : List (Int × String)) :
    mget (Cache.scrubScan ts m ((e, k) :: rest)).1 k = none := by
  rw [scrubScan_cons_go (not_lt.mpr he)]
  have h1 : mget (Cache.stepDelete m e k) k = none := by
    rw [stepDelete_of_match hg]
    exact mget_mdel_self m k
  exact mget_none_of_sublist (scrubScan_sublist ts _ rest) h1

/-! ### Properties of the eviction scan -/

/-- Under the map-ledger correspondence, the eviction scan never trips its
`assert` (the ledger read is always in bounds) and ends with the map strictly
below capacity, with correspondence re-established past the consumed
prefix. -/
theorem evictScan_spec {V : Type} {cap : Int} (hcap : 1 ≤ cap) :
    ∀ (l : List (Int × String)) (m : MapT V), keysND m →
      (∀ p ∈ m, (p.2.1, p.1) ∈ l) →
      ∃ s, Cache.evictScan cap m l = some s ∧
        List.Sublist s.1 m ∧ (s.1.length : Int) < cap ∧
        (∀ p ∈ s.1, (p.2.1, p.1) ∈ l.drop s.2) ∧ s.2 ≤ l.length := by
  intro l
  induction l with
  | nil =>
    intro m hnd hc
    have hm : m = [] := by
      cases m with
      | nil => rfl
      | cons p tail => exact absurd (hc p (List.mem_cons_self _ _)) (List.not_mem_nil _)
    subst hm
    refine ⟨([], 0), ?_, List.Sublist.refl _, ?_, by simp, Nat.le_refl 0⟩
    · rw [evictScan_nil, if_neg ?_]
      simp only [List.length_nil, Nat.cast_zero]
      omega
    · simp only [List.length_nil, Nat.cast_zero]
      omega
  | cons q rest ih =>
    intro m hnd hc
    obtain ⟨e, k⟩ := q
    by_cases hfull : cap ≤ (m.length : Int)
    · have hnd' := keysND_sublist (stepDelete_sublist m e k) hnd
      have hc' := stepDelete_corr hnd hc
      obtain ⟨s, hs, hsub, hlen, hcorr, hcount⟩ := ih (Cache.stepDelete m e k) hnd' hc'
      refine ⟨(s.1, s.2 + 1), ?_, hsub.trans (stepDelete_sublist m e k), hlen, ?_, ?_⟩
      · rw [evictScan_cons_full hfull, hs]
        rfl
      · simpa [List.drop_succ_cons] using hcorr
      · simpa using Nat.succ_le_succ hcount
    · exact ⟨(m, 0), evictScan_cons_stop hfull e k rest, List.Sublist.refl m,
             not_le.mp hfull, by simpa using hc, Nat.zero_le _⟩

/-! ### The `scrub` operation -/

theorem scrub_of_rate_limited {V : Type} {c : Cache V} {t : Int}
    (h : t - c.last.getD 0 < c.interval) : c.scrub t = c := by
  simp [Cache.scrub, h]

theorem scrub_of_due {V : Type} {c : Cache V} {t : Int}
    (h : ¬ t - c.last.getD 0 < c.interval) :
    c.scrub t = { c with map := (Cache.scrubScan t c.map c.list).1,
                         list := c.list.drop (Cache.scrubScan t c.map c.list).2,
                         last := some t } := by
  simp [Cache.scrub, h]

theorem scrub_config {V : Type} (c : Cache V) (t : Int) :
    (c.scrub t).ttl = c.ttl ∧ (c.scrub t).capacity = c.capacity ∧
    (c.scrub t).interval = c.interval := by
  by_cases h : t - c.last.getD 0 < c.interval
  · rw [scrub_of_rate_limited h]
    exact ⟨rfl, rfl, rfl⟩
  · rw [scrub_of_due h]
    exact ⟨rfl, rfl, rfl⟩

theorem scrub_map_sublist {V : Type} (c : Cache V) (t : Int) :
    List.Sublist (c.scrub t).map c.map := by
  by_cases h : t - c.last.getD 0 < c.interval
  · rw [scrub_of_rate_limited h]
  · rw [scrub_of_due h]
    exact scrubScan_sublist t c.map c.list

theorem scrub_inv {V : Type} {c : Cache V} (h : CacheInv c) (t : Int) :
    CacheInv (c.scrub t) := by
  obtain ⟨h1, h2, h3, h4, h5⟩ := h
  by_cases hr : t - c.last.getD 0 < c.interval
  · rw [scrub_of_rate_limited hr]
    exact ⟨h1, h2, h3, h4, h5⟩
  · rw [scrub_of_due hr]
    refine ⟨h1, h2, keysND_sublist (scrubScan_sublist t c.map c.list) h3,
            scrubScan_corr h3 h4, ?_⟩
    exact le_trans (Nat.cast_le.mpr (scrubScan_sublist t c.map c.list).length_le) h5

/-- A live entry survives `scrub` whatever the rate limiter decides. -/
theorem scrub_mget_live {V : Type} {c : Cache V} (hnd : keysND c.map)
    {k : String} {it : Int × V} (hg : mget c.map k = some it) {t : Int}
    (hl : t < it.1) : mget (c.scrub t).map k = some it := by
  by_cases hr : t - c.last.getD 0 < c.interval
  · rw [scrub_of_rate_limited hr]
    exact hg
  · rw [scrub_of_due hr]
    exact scrubScan_mget_live hnd hg hl c.list

/-- When every map entry is live, `scrub` leaves the map unchanged. -/
theorem scrub_map_all_live {V : Type} {c : Cache V} {t : Int}
    (hl : ∀ p ∈ c.map, t < p.2.1) : (c.scrub t).map = c.map := by
  by_cases hr : t - c.last.getD 0 < c.interval
  · rw [scrub_of_rate_limited hr]
  · rw [scrub_of_due hr]
    exact scrubScan_all_live hl c.list

/-- When every ledger entry is unexpired, `scrub` changes neither map nor
ledger. -/
theorem scrub_fresh {V : Type} {c : Cache V} {t : Int}
    (h : ∀ p ∈ c.list, t < p.1) :
    (c.scrub t).map = c.map ∧ (c.scrub t).list = c.list := by
  by_cases hr : t - c.last.getD 0 < c.interval
  · rw [scrub_of_rate_limited hr]
    exact ⟨rfl, rfl⟩
  · rw [scrub_of_due hr]
    rw [scrubScan_of_fresh t c.map h]
    exact ⟨rfl, rfl⟩

/-! ### The `get` operation -/

theorem get_eq_hit {V : Type} {c : Cache V} {k : String} {t : Int}
    {it : Int × V} (hg : mget (c.scrub t).map k = some it) (hl : t < it.1) :
    c.get k t = (c.scrub t, some it.2) := by
  simp [Cache.get, hg, hl]

theorem get_eq_expired {V : Type} {c : Cache V} {k : String} {t : Int}
    {it : Int × V} (hg : mget (c.scrub t).map k = some it) (hl : ¬ t < it.1) :
    c.get k t = ({ c.scrub t with map := mdel (c.scrub t).map k }, none) := by
  simp [Cache.get, hg, hl]

theorem get_eq_miss {V : Type} {c : Cache V} {k : String} {t : Int}
    (hg : mget (c.scrub t).map k = none) :
    c.get k t = (c.scrub t, none) := by
  simp [Cache.get, hg]

theorem get_config {V : Type} (c : Cache V) (k : String) (t : Int) :
    (c.get k t).1.ttl = c.ttl ∧ (c.get k t).1.capacity = c.capacity ∧
    (c.get k t).1.interval = c.interval := by
  have hcfg := scrub_config c t
  cases hg : mget (c.scrub t).map k with
  | none =>
    rw [get_eq_miss hg]
    exact hcfg
  | some it =>
    by_cases hl : t < it.1
    · rw [get_eq_hit hg hl]
      exact hcfg
    · rw [get_eq_expired hg hl]
      exact hcfg

theorem get_inv {V : Type} {c : Cache V} (h : CacheInv c) (k : String)
    (t : Int) : CacheInv (c.get k t).1 := by
  obtain ⟨h1, h2, h3, h4, h5⟩ := scrub_inv h t
  cases hg : mget (c.scrub t).map k with
  | none =>
    rw [get_eq_miss hg]
    exact ⟨h1, h2, h3, h4, h5⟩
  | some it =>
    by_cases hl : t < it.1
    · rw [get_eq_hit hg hl]
      exact ⟨h1, h2, h3, h4, h5⟩
    · rw [get_eq_expired hg hl]
      refine ⟨h1, h2, keysND_sublist (mdel_sublist _ k) h3, ?_, ?_⟩
      · intro p hp
        exact h4 p ((mdel_sublist _ k).subset hp)
      · exact le_trans (Nat.cast_le.mpr (mdel_sublist _ k).length_le) h5

/-- When `get` answers with a value, the key is (still) in the map of the
state it returns. -/
theorem get_hit_mget {V : Type} {c : Cache V} {k : String} {t : Int}
    (h : (c.get k t).2.isSome) :
    ∃ it, mget (c.get k t).1.map k = some it := by
  cases hg : mget (c.scrub t).map k with
  | none =>
    rw [get_eq_miss hg] at h
    simp at h
  | some it =>
    by_cases hl : t < it.1
    · rw [get_eq_hit hg hl]
      exact ⟨it, hg⟩
    · rw [get_eq_expired hg hl] at h
      simp at h

/-- The post-state of a `get` on an entry that has reached its expiration:
the call answers "absent" and the map no longer holds the key, whether the
embedded scrub swept it or the on-read expiry deleted it. -/
theorem get_expired_spec {V : Type} {c : Cache V} (hnd : keysND c.map)
    {k : String} {e : Int} {v : V} (hg : mget c.map k = some (e, v)) {t : Int}
    (he : e ≤ t) :
    (c.get k t).2 = none ∧ mget (c.get k t).1.map k = none := by
  rcases mget_sublist_cases hnd (scrub_map_sublist c t) k with hg' | hg'
  · rw [get_eq_miss hg']
    exact ⟨rfl, hg'⟩
  · rw [hg] at hg'
    have hl : ¬ t < e := not_lt.mpr he
    rw [get_eq_expired hg' hl]
    exact ⟨rfl, mget_mdel_self _ k⟩

/-! ### The `evict` operation -/

theorem evict_spec {V : Type} {c : Cache V} (h : CacheInv c) :
    ∃ c', c.evict = some c' ∧ CacheInv c' ∧
      (c'.map.length : Int) < c.capacity ∧ c'.ttl = c.ttl ∧
      c'.capacity = c.capacity ∧ c'.interval = c.interval ∧
      c'.last = c.last := by
  obtain ⟨h1, h2, h3, h4, h5⟩ := h
  obtain ⟨s, hs, hsub, hlen, hcorr, hcount⟩ := evictScan_spec h2 c.list c.map h3 h4
  refine ⟨{ c with map := s.1, list := c.list.drop s.2 }, ?_, ?_, hlen,
          rfl, rfl, rfl, rfl⟩
  · rw [Cache.evict, hs]
    rfl
  · exact ⟨h1, h2, keysND_sublist hsub h3, hcorr, le_of_lt hlen⟩

/-! ### The `set` operation -/

theorem set_eq {V : Type} (c : Cache V) (k : String) (v : V) (t : Int) :
    c.set k v t =
      (if (c.scrub t).isFull then
         (if ((c.scrub t).get k t).2.isNone then ((c.scrub t).get k t).1.evict
          else some ((c.scrub t).get k t).1)
       else some (c.scrub t)).map
        (fun c2 => { c2 with map := mset c2.map k (t + c.ttl, v),
                             list := c2.list ++ [(t + c.ttl, k)] }) := rfl

/-- The intermediate state of `set` after scrub / conditional get / eviction:
it exists (no assertion fires), satisfies the invariant, keeps the
configuration, and either has room or already holds the key. -/
theorem set_step_spec {V : Type} {c : Cache V} (h : CacheInv c) (k : String)
    (t : Int) :
    ∃ c2, (if (c.scrub t).isFull then
             (if ((c.scrub t).get k t).2.isNone then ((c.scrub t).get k t).1.evict
              else some ((c.scrub t).get k t).1)
           else some (c.scrub t)) = some c2 ∧
      CacheInv c2 ∧ c2.ttl = c.ttl ∧ c2.capacity = c.capacity ∧
      c2.interval = c.interval ∧
      ((c2.map.length : Int) < c.capacity ∨ (mget c2.map k).isSome = true) := by
  have hs1 := scrub_inv h t
  have hcfg1 := scrub_config c t
  by_cases hfull : (c.scrub t).isFull
  · rw [if_pos hfull]
    by_cases hnil : ((c.scrub t).get k t).2.isNone
    · rw [if_pos hnil]
      have hinvr := get_inv hs1 k t
      have hcfgr := get_config (c.scrub t) k t
      obtain ⟨c2, he, hinv2, hlen2, ht2, hcap2, hint2, _⟩ := evict_spec hinvr
      refine ⟨c2, he, hinv2, ?_, ?_, ?_, Or.inl ?_⟩
      · rw [ht2, hcfgr.1, hcfg1.1]
      · rw [hcap2, hcfgr.2.1, hcfg1.2.1]
      · rw [hint2, hcfgr.2.2, hcfg1.2.2]
      · rw [hcfgr.2.1, hcfg1.2.1] at hlen2
        exact hlen2
    · rw [if_neg hnil]
      have hinvr := get_inv hs1 k t
      have hcfgr := get_config (c.scrub t) k t
      have hsome : ((c.scrub t).get k t).2.isSome := by
        cases hx : ((c.scrub t).get k t).2 with
        | none => exact absurd (by simp [hx]) hnil
        | some w => simp [hx]
      obtain ⟨it, hit⟩ := get_hit_mget hsome
      refine ⟨_, rfl, hinvr, ?_, ?_, ?_, Or.inr ?_⟩
      · rw [hcfgr.1, hcfg1.1]
      · rw [hcfgr.2.1, hcfg1.2.1]
      · rw [hcfgr.2.2, hcfg1.2.2]
      · rw [hit]
        rfl
  · rw [if_neg hfull]
    refine ⟨_, rfl, hs1, hcfg1.1, hcfg1.2.1, hcfg1.2.2, Or.inl ?_⟩
    have : ¬ (c.scrub t).capacity ≤ ((c.scrub t).map.length : Int) := by
      simpa [Cache.isFull] using hfull
    rw [hcfg1.2.1] at this
    exact not_le.mp this

/-- Full specification of a successful `set` from an invariant state. -/
theorem set_spec {V : Type} {c : Cache V} (h : CacheInv c) (k : String) (v : V)
    (t : Int) :
    ∃ c', c.set k v t = some c' ∧ CacheInv c' ∧ c'.ttl = c.ttl ∧
      c'.capacity = c.capacity ∧ c'.interval = c.interval ∧
      mget c'.map k = some (t + c.ttl, v) := by
  obtain ⟨c2, hc2, hinv2, ht2, hcap2, hint2, hroom⟩ := set_step_spec h k t
  obtain ⟨g1, g2, g3, g4, g5⟩ := hinv2
  refine ⟨{ c2 with map := mset c2.map k (t + c.ttl, v), list := c2.list ++ [(t + c.ttl, k)] }, ?_, ?_, ht2, hcap2, hint2, ?_⟩
  · rw [set_eq, hc2]
    rfl
  · refine ⟨g1, g2, mset_keys_nd g3 k _, ?_, ?_⟩
    · intro p hp
      rcases mset_mem hp with h1 | h1
      · subst h1
        exact List.mem_append_right _ (List.mem_cons_self _ _)
      · exact List.mem_append_left _ (g4 p h1)
    · rw [mset_length]
      by_cases hsome : (mget c2.map k).isSome
      · rw [if_pos hsome]
        exact g5
      · rw [if_neg hsome]
        rcases hroom with hlt | hs
        · rw [← hcap2] at hlt
          push_cast
          omega
        · exact absurd hs hsome
  · exact mget_mset_self c2.map k _

/-! ### The constructor and operation sequences -/

theorem new_spec {V : Type} {t cap : Int} {i : Option Int} {c0 : Cache V}
    (h : Cache.new t cap i = some c0) :
    CacheInv c0 ∧ c0.ttl = t ∧ c0.capacity = cap ∧
    c0.interval = i.getD 10000 ∧ c0.last = none ∧ c0.map = [] ∧
    c0.list = [] := by
  by_cases hok : 0 < t ∧ 0 < cap
  · rw [Cache.new, if_pos hok] at h
    cases h
    refine ⟨⟨hok.1, ?_, ?_, ?_, ?_⟩, rfl, rfl, rfl, rfl, rfl, rfl⟩
    · show (1 : Int) ≤ cap
      omega
    · show keysND ([] : MapT V)
      simp [keysND]
    · intro p hp
      exact absurd hp (List.not_mem_nil p)
    · show ((List.length ([] : MapT V) : Nat) : Int) ≤ cap
      simp only [List.length_nil, Nat.cast_zero]
      omega
  · rw [Cache.new, if_neg hok] at h
    exact absurd h (by simp)

theorem runOps_spec {V : Type} {c : Cache V} (h : CacheInv c)
    (ops : List (Op V)) :
    ∃ c', runOps c ops = some c' ∧ CacheInv c' ∧
      c'.ttl = c.ttl ∧ c'.capacity = c.capacity := by
  induction ops generalizing c with
  | nil => exact ⟨c, rfl, h, rfl, rfl⟩
  | cons op rest ih =>
    cases op with
    | setOp k v t =>
      obtain ⟨c1, hs, hinv, ht, hcap, hint, hg⟩ := set_spec h k v t
      obtain ⟨c', hr, hinv', ht', hcap'⟩ := ih hinv
      exact ⟨c', by simp [runOps, hs, hr], hinv', ht'.trans ht, hcap'.trans hcap⟩
    | getOp k t =>
      have hinv := get_inv h k t
      obtain ⟨c', hr, hinv', ht', hcap'⟩ := ih hinv
      have hcfg := get_config c k t
      exact ⟨c', by simp [runOps, hr], hinv', ht'.trans hcfg.1,
             hcap'.trans hcfg.2.1⟩

/-! ### Small helpers about `isFull` -/

theorem isFull_true {V : Type} {c : Cache V}
    (h : c.capacity ≤ (c.map.length : Int)) : c.isFull = true := by
  simpa [Cache.isFull] using h

theorem isFull_false {V : Type} {c : Cache V}
    (h : (c.map.length : Int) < c.capacity) : c.isFull = false := by
  simpa [Cache.isFull] using not_le.mpr h

/-! ### Claims C1, C8, C9: capacity invariant, correspondence, totality -/

/-- C1: Capacity invariant — for every cache constructed with `ttl > 0` and
`capacity > 0` and every finite sequence of `set`/`get` calls at arbitrary
keys, values and supplied times, every call succeeds, and the map size is at
most `capacity`; in particular immediately after any further `set` call
returns it is still at most `capacity`. -/
theorem spec_C1 {V : Type} {t cap : Int} {i : Option Int} {c0 : Cache V}
    (hnew : Cache.new t cap i = some c0) (ops : List (Op V)) :
    ∃ c, runOps c0 ops = some c ∧ (c.map.length : Int) ≤ cap ∧
      ∀ (k : String) (v : V) (t1 : Int), ∃ c', c.set k v t1 = some c' ∧
        (c'.map.length : Int) ≤ cap := by
  obtain ⟨hinv, _, hcap0, _⟩ := new_spec hnew
  obtain ⟨c, hr, hinv', _, hcap'⟩ := runOps_spec hinv ops
  refine ⟨c, hr, ?_, ?_⟩
  · have hle := hinv'.2.2.2.2
    rw [hcap', hcap0] at hle
    exact hle
  · intro k v t1
    obtain ⟨c', hs, hinv'', _, hcap'', _⟩ := set_spec hinv' k v t1
    refine ⟨c', hs, ?_⟩
    have hle := hinv''.2.2.2.2
    rw [hcap'', hcap', hcap0] at hle
    exact hle

/-- Witness for C1: a concrete constructed cache and call sequence. -/
theorem spec_C1_witness :
    ∃ c, runOps (Cache.mk 5 2 10000 none [] [])
        [Op.setOp "a" (0 : Nat) 0, Op.getOp "a" 1, Op.setOp "b" 1 1] = some c ∧
      (c.map.length : Int) ≤ 2 ∧
      ∀ (k : String) (v : Nat) (t1 : Int), ∃ c', c.set k v t1 = some c' ∧
        (c'.map.length : Int) ≤ 2 :=
  spec_C1 (show Cache.new 5 2 none = some (Cache.mk 5 2 10000 none [] [])
    from by decide) [Op.setOp "a" 0 0, Op.getOp "a" 1, Op.setOp "b" 1 1]

/-- C8: Map–ledger correspondence — the invariant `CacheInv` (each map entry
has a matching ledger entry beyond any consumed prefix, size within
capacity) holds for a freshly constructed cache and is preserved by `set`
and `get`; consequently `evict` from any invariant state never fails the
assertion inside its loop (the ledger read is always in bounds), and it
terminates with the map strictly below capacity. -/
theorem spec_C8 {V : Type} :
    (∀ {t cap : Int} {i : Option Int} {c0 : Cache V},
        Cache.new t cap i = some c0 → CacheInv c0) ∧
    (∀ (c : Cache V) (k : String) (v : V) (t : Int), CacheInv c →
        ∃ c', c.set k v t = some c' ∧ CacheInv c') ∧
    (∀ (c : Cache V) (k : String) (t : Int), CacheInv c →
        CacheInv (c.get k t).1) ∧
    (∀ c : Cache V, CacheInv c →
        ∃ c', c.evict = some c' ∧ CacheInv c' ∧
          (c'.map.length : Int) < c.capacity) := by
  refine ⟨fun hnew => (new_spec hnew).1, ?_, ?_, ?_⟩
  · intro c k v t h
    obtain ⟨c', hs, hinv, _⟩ := set_spec h k v t
    exact ⟨c', hs, hinv⟩
  · intro c k t h
    exact get_inv h k t
  · intro c h
    obtain ⟨c', he, hinv, hlt, _⟩ := evict_spec h
    exact ⟨c', he, hinv, hlt⟩

/-- Witness for C8 at concrete states, including an `evict` on a full map. -/
theorem spec_C8_witness :
    CacheInv (Cache.mk 5 2 10000 none [] [] : Cache Nat) ∧
    (∃ c', (Cache.mk 5 2 10000 none [] [] : Cache Nat).set "a" 1 0 = some c' ∧
      CacheInv c') ∧
    CacheInv ((Cache.mk 5 2 10000 none [] [] : Cache Nat).get "a" 0).1 ∧
    (∃ c', (Cache.mk 5 1 10000 none [("a", (3, 7))] [(3, "a")] :
        Cache Nat).evict = some c' ∧ CacheInv c' ∧ (c'.map.length : Int) < 1) :=
  ⟨spec_C8.1 (show Cache.new 5 2 none =
      some (Cache.mk 5 2 10000 none [] []) from by decide),
   spec_C8.2.1 _ "a" 1 0 (by decide),
   spec_C8.2.2.1 _ "a" 0 (by decide),
   spec_C8.2.2.2 _ (by decide)⟩

/-- C9: Errors only at construction — `new` fails exactly when `ttl ≤ 0` or
`capacity ≤ 0`, and otherwise yields the empty cache with `interval`
defaulting to 10000 when omitted; `get`, `scrub` and `isFull` are total by
type, and from any invariant (reachable) state `set` and `evict` always
return a result (their internal assertions cannot fire) — a cache miss is
the `none` result of `get`, not an error. -/
theorem spec_C9 {V : Type} :
    (∀ (t cap : Int) (i : Option Int), (t ≤ 0 ∨ cap ≤ 0) →
       Cache.new (V := V) t cap i = none) ∧
    (∀ (t cap : Int) (i : Option Int), 0 < t → 0 < cap →
       Cache.new (V := V) t cap i =
         some (Cache.mk t cap (i.getD 10000) none [] [])) ∧
    (∀ (c : Cache V) (k : String) (v : V) (t : Int), CacheInv c →
       ∃ c', c.set k v t = some c') ∧
    (∀ c : Cache V, CacheInv c → ∃ c', c.evict = some c') := by
  refine ⟨?_, ?_, ?_, ?_⟩
  · intro t cap i hbad
    rw [Cache.new, if_neg]
    rintro ⟨h1, h2⟩
    rcases hbad with h | h <;> omega
  · intro t cap i h1 h2
    rw [Cache.new, if_pos ⟨h1, h2⟩]
  · intro c k v t h
    obtain ⟨c', hs, _⟩ := set_spec h k v t
    exact ⟨c', hs⟩
  · intro c h
    obtain ⟨c', he, _⟩ := evict_spec h
    exact ⟨c', he⟩

/-- Witness for C9 at concrete parameters and states. -/
theorem spec_C9_witness :
    Cache.new (V := Nat) 0 5 none = none ∧
    Cache.new (V := Nat) 5 2 (some 7) = some (Cache.mk 5 2 7 none [] []) ∧
    (∃ c', (Cache.mk 5 2 10000 none [] [] : Cache Nat).set "a" 1 0 = some c') ∧
    (∃ c', (Cache.mk 5 1 10000 none [("a", (3, 7))] [(3, "a")] :
        Cache Nat).evict = some c') :=
  ⟨spec_C9.1 0 5 none (Or.inl (by omega)),
   spec_C9.2.1 5 2 (some 7) (by omega) (by omega),
   spec_C9.2.2.1 _ "a" 1 0 (by decide),
   spec_C9.2.2.2 _ (by decide)⟩

/-! ### Claim C2: the stale-entry guard -/

/-- C2: Stale-entry guard — the per-ledger-entry step shared by the `scrub`
and `evict` loops (i) leaves the map entirely unchanged when the map's
current entry for the key has an expiration different from the ledger
entry's, (ii) deletes the key's entry exactly when the expirations match,
and (iii) consequently a freshly re-set key's live value is never removed by
a scrub sweep over its older, stale ledger entries. -/
theorem spec_C2 {V : Type} :
    (∀ (m : MapT V) (e : Int) (k : String) (it : Int × V),
       mget m k = some it → it.1 ≠ e → Cache.stepDelete m e k = m) ∧
    (∀ (m : MapT V) (e : Int) (k : String) (v : V),
       mget m k = some (e, v) → mget (Cache.stepDelete m e k) k = none) ∧
    (∀ (ts : Int) (m : MapT V) (l : List (Int × String)) (k : String)
       (it : Int × V), keysND m → mget m k = some it → ts < it.1 →
       mget (Cache.scrubScan ts m l).1 k = some it) := by
  refine ⟨?_, ?_, ?_⟩
  · intro m e k it hg hne
    exact stepDelete_of_mismatch hg hne
  · intro m e k v hg
    rw [stepDelete_of_match hg]
    exact mget_mdel_self m k
  · intro ts m l k it hnd hg hl
    exact scrubScan_mget_live hnd hg hl l

/-- Witness for C2: a key re-set with a newer expiration survives the sweep
of its older ledger entry. -/
theorem spec_C2_witness :
    Cache.stepDelete [("a", (9, 5))] 3 "a" = [("a", ((9 : Int), (5 : Nat)))] ∧
    mget (Cache.stepDelete [("a", ((9 : Int), (5 : Nat)))] 9 "a") "a" = none ∧
    mget (Cache.scrubScan 4 [("a", ((9 : Int), (5 : Nat)))]
      [(3, "a"), (4, "a")]).1 "a" = some (9, 5) :=
  ⟨spec_C2.1 [("a", (9, 5))] 3 "a" (9, 5) (by decide) (by decide),
   spec_C2.2.1 [("a", (9, 5))] 9 "a" 5 (by decide),
   spec_C2.2.2 4 [("a", (9, 5))] [(3, "a"), (4, "a")] "a" (9, 5)
     (by decide) (by decide) (by decide)⟩

/-! ### Claims C4, C5: round-trip and expiry -/

/-- C4: Round-trip — from any invariant state, `set(k, v, t0)` followed
immediately by `get(k, t1)` with `t0 ≤ t1` and `t1 − t0 < ttl` returns `v`. -/
theorem spec_C4 {V : Type} {c : Cache V} (h : CacheInv c) (k : String) (v : V)
    {t0 t1 : Int} (h01 : t0 ≤ t1) (hin : t1 - t0 < c.ttl) :
    ∃ c', c.set k v t0 = some c' ∧ (c'.get k t1).2 = some v := by
  obtain ⟨c', hs, hinv, ht, _, _, hg⟩ := set_spec h k v t0
  refine ⟨c', hs, ?_⟩
  have hl : t1 < ((t0 + c.ttl, v) : Int × V).1 := by
    show t1 < t0 + c.ttl
    omega
  have hg' := scrub_mget_live hinv.2.2.1 hg hl
  rw [get_eq_hit hg' hl]

/-- Witness for C4 at a concrete cache and times. -/
theorem spec_C4_witness :
    ∃ c', (Cache.mk 5 2 10000 none [] [] : Cache Nat).set "a" 3 0 = some c' ∧
      (c'.get "a" 1).2 = some 3 :=
  spec_C4 (by decide) "a" 3 (by omega) (by decide)

/-- C5: Expiry — from any invariant state, after `set(k, v, t0)` a
`get(k, t0 + ttl + ε)` with `ε > 0` answers absent, and the map of the state
the `get` returns no longer holds `k`: the expired entry is gone after the
call whether the rate-limited scrub swept it or the on-read expiry deleted
it. -/
theorem spec_C5 {V : Type} {c : Cache V} (h : CacheInv c) (k : String) (v : V)
    (t0 : Int) {e : Int} (he : 0 < e) :
    ∃ c', c.set k v t0 = some c' ∧
      (c'.get k (t0 + c.ttl + e)).2 = none ∧
      mget (c'.get k (t0 + c.ttl + e)).1.map k = none := by
  obtain ⟨c', hs, hinv, ht, _, _, hg⟩ := set_spec h k v t0
  exact ⟨c', hs, get_expired_spec hinv.2.2.1 hg (by omega)⟩

/-- Witness for C5 at a concrete cache, with ε = 1. -/
theorem spec_C5_witness :
    ∃ c', (Cache.mk 5 2 10000 none [] [] : Cache Nat).set "a" 3 0 = some c' ∧
      (c'.get "a" (0 + 5 + 1)).2 = none ∧
      mget (c'.get "a" (0 + 5 + 1)).1.map "a" = none :=
  spec_C5 (by decide) "a" 3 0 (by omega)

/-! ### Claim C7: scrub rate-limiting -/

/-- C7: Scrub rate-limiting — if the last scrub ran at time `s` and
`t − s < interval`, then `scrub t` does nothing at all (map, ledger and
`last` unchanged), so two `set`/`get` calls within `interval` of each other
perform at most one ledger prefix-scan; nevertheless a direct `get` at `t`
of a key whose entry has already expired still answers absent and drops the
entry, via on-read expiry rather than the sweep. -/
theorem spec_C7 {V : Type} (c : Cache V) (s t : Int) (hlast : c.last = some s)
    (hrl : t - s < c.interval) :
    c.scrub t = c ∧
    ∀ (k : String) (e : Int) (v : V), keysND c.map →
      mget c.map k = some (e, v) → e ≤ t →
      (c.get k t).2 = none ∧ mget (c.get k t).1.map k = none := by
  have hs : c.scrub t = c := by
    refine scrub_of_rate_limited ?_
    rw [hlast]
    simpa using hrl
  refine ⟨hs, ?_⟩
  intro k e v hnd hg he
  exact get_expired_spec hnd hg he

/-- Witness for C7: last scrub at 0, call at 1 with interval 10000; the
entry for "a" expired at 1 and the rate-limited `get` still reports absent
and removes it. -/
theorem spec_C7_witness :
    (Cache.mk 5 3 10000 (some 0) [("a", (1, 7))] [(1, "a")] :
        Cache Nat).scrub 1 = Cache.mk 5 3 10000 (some 0) [("a", (1, 7))] [(1, "a")] ∧
    (((Cache.mk 5 3 10000 (some 0) [("a", ((1 : Int), (7 : Nat)))]
        [(1, "a")]).get "a" 1).2 = none ∧
      mget ((Cache.mk 5 3 10000 (some 0) [("a", ((1 : Int), (7 : Nat)))]
        [(1, "a")]).get "a" 1).1.map "a" = none) :=
  ⟨(spec_C7 _ 0 1 rfl (by decide)).1,
   (spec_C7 _ 0 1 rfl (by decide)).2 "a" 1 7 (by decide) (by decide) (by omega)⟩

/-! ### Claim C10: the expiration boundary is exclusive -/

/-- C10: Exclusive expiration boundary — (i) from any invariant state, after
`set(k, v, t0)` a `get` at exactly `t0 + ttl` (ε = 0) answers absent and the
entry is gone from the returned state's map; (ii) a due scrub purges a
leading ledger entry whose expiration is `≤ now` when it still matches the
map; (iii) a `get` hit requires the entry's expiration to be strictly
greater than `now`. -/
theorem spec_C10 {V : Type} :
    (∀ {c : Cache V}, CacheInv c → ∀ (k : String) (v : V) (t0 : Int),
       ∃ c', c.set k v t0 = some c' ∧ (c'.get k (t0 + c.ttl)).2 = none ∧
         mget (c'.get k (t0 + c.ttl)).1.map k = none) ∧
    (∀ (c : Cache V) (t e : Int) (k : String) (v : V)
       (rest : List (Int × String)),
       c.list = (e, k) :: rest → mget c.map k = some (e, v) → e ≤ t →
       ¬ t - c.last.getD 0 < c.interval →
       mget (c.scrub t).map k = none) ∧
    (∀ (c : Cache V) (k : String) (t : Int) (v : V),
       (c.get k t).2 = some v →
       ∃ e, mget (c.scrub t).map k = some (e, v) ∧ t < e) := by
  refine ⟨?_, ?_, ?_⟩
  · intro c h k v t0
    obtain ⟨c', hs, hinv, ht, _, _, hg⟩ := set_spec h k v t0
    exact ⟨c', hs, get_expired_spec hinv.2.2.1 hg (by omega)⟩
  · intro c t e k v rest hlist hg he hdue
    rw [scrub_of_due hdue]
    show mget (Cache.scrubScan t c.map c.list).1 k = none
    rw [hlist]
    exact scrubScan_head_purges hg he rest
  · intro c k t v hv
    cases hg : mget (c.scrub t).map k with
    | none =>
      rw [get_eq_miss hg] at hv
      exact absurd hv (by simp)
    | some it =>
      obtain ⟨e, w⟩ := it
      by_cases hl : t < (e, w).1
      · rw [get_eq_hit hg hl] at hv
        refine ⟨e, ?_, hl⟩
        exact congrArg some (congrArg (Prod.mk e) (Option.some.inj hv))
      · rw [get_eq_expired hg hl] at hv
        exact absurd hv (by simp)

/-- Witness for C10: the three parts at concrete inputs (ε = 0 boundary,
a due scrub purging an exactly-expired leading ledger entry, and a live
hit). -/
theorem spec_C10_witness :
    (∃ c', (Cache.mk 5 2 10000 none [] [] : Cache Nat).set "a" 3 0 = some c' ∧
      (c'.get "a" (0 + 5)).2 = none ∧
      mget (c'.get "a" (0 + 5)).1.map "a" = none) ∧
    mget ((Cache.mk 5 10 1 none [("a", ((3 : Int), (7 : Nat)))]
      [(3, "a"), (9, "b")]).scrub 3).map "a" = none ∧
    (∃ e, mget ((Cache.mk 9 3 10000 (some 0) [("b", ((8 : Int), (2 : Nat)))]
        [(8, "b")]).scrub 4).map "b" = some (e, 2) ∧ (4 : Int) < e) :=
  ⟨spec_C10.1 (by decide) "a" 3 0,
   spec_C10.2.1 _ 3 3 "a" 7 [(9, "b")] rfl (by decide) (by omega) (by decide),
   spec_C10.2.2 _ "b" 4 2 (by decide)⟩

/-! ### Claim C6: overwrite at full capacity -/

/-- C6 as frozen is false on the code.  With ttl 10, capacity 2, interval 1:
`set "j" at 0`, `set "k" at 8` leave the map full (size 2 = capacity) with
"k" live at time 12 (expiration 18 > 12) and "j" expired (expiration 10).
`set "k" at 12` then changes "j"'s entry (it is deleted) and shrinks the map
to size 1, because the scrub that `set` runs first removes the
already-expired entry — contradicting "every other key's map entry is
unchanged by the call and map.size is the same after the call as before
it". -/
theorem spec_C6_counterexample :
    (((Cache.new (V := Nat) 10 2 (some 1)).bind fun c => c.set "j" 1 0).bind
        fun c => c.set "k" 2 8).map
        (fun c => ((c.map.length : Int), c.capacity, mget c.map "k",
                   mget c.map "j")) =
      some (2, 2, some (18, 2), some (10, 1)) ∧
    ((((Cache.new (V := Nat) 10 2 (some 1)).bind fun c => c.set "j" 1 0).bind
        fun c => c.set "k" 2 8).bind fun c => c.set "k" 99 12).map
        (fun c => ((c.map.length : Int), mget c.map "j")) =
      some (1, none) :=
  ⟨by decide, by decide⟩

/-- C6 amended: at full capacity, a `set` on a live key never evicts.
Unconditionally (even when other entries have already expired): the call
succeeds with the eviction guard `isNil(this.get(key, now))` false (the
embedded `get` answers the live value, so `evict` is never invoked), the key
maps to the new value, every other key's live entry survives with exactly
its old expiration and value, and no other entry is changed or added — an
entry can only disappear, by expiry.  When moreover every map entry is still
live at the call time, the map size is unchanged and every other key's entry
is untouched. -/
theorem spec_C6 {V : Type} {c : Cache V} (hnd : keysND c.map)
    (hfull : (c.map.length : Int) = c.capacity) (k : String) (v : V)
    {t e : Int} {w : V} (hk : mget c.map k = some (e, w)) (hl : t < e) :
    ∃ c', c.set k v t = some c' ∧
      ((c.scrub t).get k t).2 = some w ∧
      mget c'.map k = some (t + c.ttl, v) ∧
      (∀ (k' : String) (e' : Int) (v' : V), k' ≠ k →
        mget c.map k' = some (e', v') → t < e' →
        mget c'.map k' = some (e', v')) ∧
      (∀ (k' : String) (e' : Int) (v' : V), k' ≠ k →
        mget c'.map k' = some (e', v') → mget c.map k' = some (e', v')) ∧
      ((∀ p ∈ c.map, t < p.2.1) → c'.map.length = c.map.length ∧
        ∀ k', k' ≠ k → mget c'.map k' = mget c.map k') := by
  have hnd1 : keysND (c.scrub t).map :=
    keysND_sublist (scrub_map_sublist c t) hnd
  have hs1 : mget (c.scrub t).map k = some (e, w) := scrub_mget_live hnd hk hl
  have hs2 : mget ((c.scrub t).scrub t).map k = some (e, w) :=
    scrub_mget_live hnd1 hs1 hl
  have hget : (c.scrub t).get k t =
      ((c.scrub t).scrub t, some ((e, w) : Int × V).2) :=
    get_eq_hit hs2 hl
  have key : ∃ c2 : Cache V,
      c.set k v t = some { c2 with map := mset c2.map k (t + c.ttl, v), list := c2.list ++ [(t + c.ttl, k)] } ∧
      (c2.map = (c.scrub t).map ∨ c2.map = ((c.scrub t).scrub t).map) := by
    by_cases hfl : (c.scrub t).isFull = true
    · refine ⟨(c.scrub t).scrub t, ?_, Or.inr rfl⟩
      rw [set_eq, if_pos hfl, hget]
      rfl
    · refine ⟨c.scrub t, ?_, Or.inl rfl⟩
      rw [set_eq, if_neg hfl]
      rfl
  obtain ⟨c2, hset, hmap2⟩ := key
  have hsub : List.Sublist c2.map c.map := by
    rcases hmap2 with h2 | h2 <;> rw [h2]
    · exact scrub_map_sublist c t
    · exact (scrub_map_sublist (c.scrub t) t).trans (scrub_map_sublist c t)
  have hlive : ∀ (k' : String) (e' : Int) (v' : V),
      mget c.map k' = some (e', v') → t < e' →
      mget c2.map k' = some (e', v') := by
    intro k' e' v' hg hl'
    rcases hmap2 with h2 | h2 <;> rw [h2]
    · exact scrub_mget_live hnd hg hl'
    · exact scrub_mget_live hnd1 (scrub_mget_live hnd hg hl') hl'
  have hall2 : (∀ p ∈ c.map, t < p.2.1) → c2.map = c.map := by
    intro hall
    rcases hmap2 with h2 | h2 <;> rw [h2]
    · exact scrub_map_all_live hall
    · have h3 : (c.scrub t).map = c.map := scrub_map_all_live hall
      rw [show ((c.scrub t).scrub t).map = (c.scrub t).map from
        scrub_map_all_live (by rw [h3]; exact hall), h3]
  refine ⟨_, hset, ?_, ?_, ?_, ?_, ?_⟩
  · rw [hget]
  · show mget (mset c2.map k (t + c.ttl, v)) k = some (t + c.ttl, v)
    exact mget_mset_self _ _ _
  · intro k' e' v' hne hg hl'
    show mget (mset c2.map k (t + c.ttl, v)) k' = some (e', v')
    rw [mget_mset_ne _ _ hne]
    exact hlive k' e' v' hg hl'
  · intro k' e' v' hne hg
    have hg2 : mget (mset c2.map k (t + c.ttl, v)) k' = some (e', v') := hg
    rw [mget_mset_ne _ _ hne] at hg2
    rcases mget_sublist_cases hnd hsub k' with hcase | hcase
    · rw [hcase] at hg2
      exact absurd hg2 (by simp)
    · rw [← hcase]
      exact hg2
  · intro hall
    have h2 := hall2 hall
    constructor
    · show (mset c2.map k (t + c.ttl, v)).length = c.map.length
      rw [h2, mset_length, if_pos (by rw [hk]; rfl)]
    · intro k' hne
      show mget (mset c2.map k (t + c.ttl, v)) k' = mget c.map k'
      rw [mget_mset_ne _ _ hne, h2]

/-- Witness for the amended C6 at the counterexample's own pre-state: the
map is full, "k" is live and "j" has already expired at time 12; the call
never evicts — the embedded `get` hits, "k" is updated, and the live-entry
survival and provenance clauses hold (only expired "j" disappears, by
expiry). -/
theorem spec_C6_witness :
    ∃ c', (Cache.mk 10 2 1 (some 8) [("j", (10, 1)), ("k", (18, 2))]
        [(10, "j"), (18, "k")] : Cache Nat).set "k" 99 12 = some c' ∧
      (((Cache.mk 10 2 1 (some 8) [("j", (10, 1)), ("k", (18, 2))]
        [(10, "j"), (18, "k")] : Cache Nat).scrub 12).get "k" 12).2 = some 2 ∧
      mget c'.map "k" = some (12 + 10, 99) ∧
      (∀ (k' : String) (e' : Int) (v' : Nat), k' ≠ "k" →
        mget [("j", ((10 : Int), (1 : Nat))), ("k", (18, 2))] k' =
          some (e', v') → 12 < e' → mget c'.map k' = some (e', v')) ∧
      (∀ (k' : String) (e' : Int) (v' : Nat), k' ≠ "k" →
        mget c'.map k' = some (e', v') →
        mget [("j", ((10 : Int), (1 : Nat))), ("k", (18, 2))] k' =
          some (e', v')) ∧
      ((∀ p ∈ [("j", ((10 : Int), (1 : Nat))), ("k", (18, 2))], (12 : Int) < p.2.1) →
        c'.map.length = 2 ∧ ∀ k', k' ≠ "k" → mget c'.map k' =
          mget [("j", ((10 : Int), (1 : Nat))), ("k", (18, 2))] k') :=
  spec_C6 (by decide) (by decide) "k" 99
    (show mget [("j", ((10 : Int), (1 : Nat))), ("k", (18, 2))] "k" =
      some (18, 2) from by decide) (by decide)

/-! ### Infrastructure for the eviction-order claim -/

theorem evictScan_not_full {V : Type} {cap : Int} {m : MapT V}
    (h : ¬ cap ≤ (m.length : Int)) (l : List (Int × String)) :
    Cache.evictScan cap m l = some (m, 0) := by
  cases l with
  | nil => rw [evictScan_nil, if_neg h]
  | cons q rest =>
    obtain ⟨e, k⟩ := q
    exact evictScan_cons_stop h e k rest

theorem entriesOf_keys {V : Type} (e : Int) (kvs : List (String × V)) :
    (entriesOf e kvs).map Prod.fst = kvs.map Prod.fst := by
  induction kvs with
  | nil => rfl
  | cons q rest ih => simpa [entriesOf] using ih

theorem entriesOf_nd {V : Type} (e : Int) {kvs : List (String × V)}
    (h : (kvs.map Prod.fst).Nodup) : keysND (entriesOf e kvs) := by
  rw [keysND, entriesOf_keys]
  exact h

theorem entriesOf_mget_none {V : Type} {e : Int} {kvs : List (String × V)}
    {k : String} (h : k ∉ kvs.map Prod.fst) :
    mget (entriesOf e kvs) k = none := by
  rw [mget_eq_none_iff]
  intro p hp
  rcases List.mem_map.mp hp with ⟨q, hq, rfl⟩
  intro hc
  exact h (List.mem_map.mpr ⟨q, hq, hc⟩)

theorem entriesOf_mem {V : Type} {e : Int} {kvs : List (String × V)}
    {q : String × V} (h : q ∈ kvs) : (q.1, (e, q.2)) ∈ entriesOf e kvs :=
  List.mem_map.mpr ⟨q, h, rfl⟩

theorem entriesOf_append {V : Type} (e : Int) (l1 l2 : List (String × V)) :
    entriesOf e (l1 ++ l2) = entriesOf e l1 ++ entriesOf e l2 :=
  List.map_append _ l1 l2

theorem ledgerOf_append {V : Type} (e : Int) (l1 l2 : List (String × V)) :
    ledgerOf e (l1 ++ l2) = ledgerOf e l1 ++ ledgerOf e l2 :=
  List.map_append _ l1 l2

theorem ledgerOf_fresh {V : Type} {e t : Int} (h : t < e)
    (kvs : List (String × V)) : ∀ p ∈ ledgerOf e kvs, t < p.1 := by
  intro p hp
  rcases List.mem_map.mp hp with ⟨q, hq, rfl⟩
  exact h

theorem mdel_entriesOf_cons {V : Type} (e : Int) (q : String × V)
    {rest : List (String × V)} (h : q.1 ∉ rest.map Prod.fst) :
    mdel (entriesOf e (q :: rest)) q.1 = entriesOf e rest := by
  show mdel ((q.1, (e, q.2)) :: entriesOf e rest) q.1 = entriesOf e rest
  simp only [mdel]
  rw [if_pos trivial, mdel_of_mget_none (entriesOf_mget_none h)]

theorem setAll_append {V : Type} (c : Cache V) (t : Int)
    (l1 l2 : List (String × V)) :
    setAll c t (l1 ++ l2) = (setAll c t l1).bind fun c' => setAll c' t l2 := by
  induction l1 generalizing c with
  | nil => rfl
  | cons kv rest ih =>
    obtain ⟨k, v⟩ := kv
    show (c.set k v t).bind (fun c' => setAll c' t (rest ++ l2)) =
      ((c.set k v t).bind fun c' => setAll c' t rest).bind fun c' => setAll c' t l2
    cases c.set k v t with
    | none => rfl
    | some c1 => simpa using ih c1

/-- Filling distinct fresh keys at one supplied time while staying within
capacity: from a state whose map and ledger mirror the already-set pairs,
the remaining `set` calls all succeed — no eviction, no expiry — and extend
the mirror in order. -/
theorem setAll_fill {V : Type} (t : Int) (kvs : List (String × V)) :
    ∀ (c : Cache V) (done : List (String × V)), 0 < c.ttl →
      c.map = entriesOf (t + c.ttl) done →
      c.list = ledgerOf (t + c.ttl) done →
      (((done ++ kvs).map Prod.fst)).Nodup →
      (((done.length + kvs.length : Nat) : Int)) ≤ c.capacity →
      ∃ c', setAll c t kvs = some c' ∧
        c'.ttl = c.ttl ∧ c'.capacity = c.capacity ∧
        c'.map = entriesOf (t + c.ttl) (done ++ kvs) ∧
        c'.list = ledgerOf (t + c.ttl) (done ++ kvs) := by
  induction kvs with
  | nil =>
    intro c done h0 h1 h2 h3 h4
    exact ⟨c, rfl, rfl, rfl, by simpa using h1, by simpa using h2⟩
  | cons kv rest ih =>
    intro c done h0 h1 h2 h3 h4
    obtain ⟨k, v⟩ := kv
    have hfresh : ∀ p ∈ c.list, t < p.1 := by
      rw [h2]
      exact ledgerOf_fresh (by omega) done
    obtain ⟨hm1, hl1⟩ := scrub_fresh hfresh
    have hcfg := scrub_config c t
    have hdonelen : (entriesOf (t + c.ttl) done).length = done.length :=
      List.length_map _ _
    have hnotfull : (c.scrub t).isFull = false := by
      refine isFull_false ?_
      rw [hm1, hcfg.2.1, h1, hdonelen]
      simp only [List.length_cons] at h4
      push_cast at h4 ⊢
      omega
    have hstep : c.set k v t = some { (c.scrub t) with map := mset (c.scrub t).map k (t + c.ttl, v), list := (c.scrub t).list ++ [(t + c.ttl, k)] } := by
      rw [set_eq, if_neg (by rw [hnotfull]; exact Bool.false_ne_true)]
      rfl
    have hknotin : k ∉ done.map Prod.fst := by
      simp only [List.map_append, List.map_cons] at h3
      have hdisj := (List.nodup_append.mp h3).2.2
      intro hin
      exact hdisj hin (List.mem_cons_self _ _)
    have hmapnew : mset (c.scrub t).map k (t + c.ttl, v) =
        entriesOf (t + c.ttl) (done ++ [(k, v)]) := by
      rw [hm1, h1, mset_of_mget_none (entriesOf_mget_none hknotin),
          entriesOf_append]
      rfl
    have hlistnew : (c.scrub t).list ++ [(t + c.ttl, k)] =
        ledgerOf (t + c.ttl) (done ++ [(k, v)]) := by
      rw [hl1, h2, ledgerOf_append]
      rfl
    obtain ⟨c', hrest, ht', hcap', hmap', hlist'⟩ :=
      ih { (c.scrub t) with map := mset (c.scrub t).map k (t + c.ttl, v), list := (c.scrub t).list ++ [(t + c.ttl, k)] }
        (done ++ [(k, v)]) (by show 0 < (c.scrub t).ttl; rw [hcfg.1]; exact h0)
        (by show mset (c.scrub t).map k (t + c.ttl, v) = _
            rw [hcfg.1, hmapnew])
        (by show (c.scrub t).list ++ [(t + c.ttl, k)] = _
            rw [hcfg.1, hlistnew])
        (by simpa [List.append_assoc] using h3)
        (by show _ ≤ (c.scrub t).capacity
            rw [hcfg.2.1]
            simp only [List.length_append, List.length_cons, List.length_nil]
              at h4 ⊢
            push_cast at h4 ⊢
            omega)
    refine ⟨c', ?_, ?_, ?_, ?_, ?_⟩
    · show (c.set k v t).bind (fun c2 => setAll c2 t rest) = some c'
      rw [hstep]
      simpa using hrest
    · rw [ht']
      show (c.scrub t).ttl = c.ttl
      exact hcfg.1
    · rw [hcap']
      show (c.scrub t).capacity = c.capacity
      exact hcfg.2.1
    · rw [hmap']
      show entriesOf (t + (c.scrub t).ttl) _ = _
      rw [hcfg.1, List.append_assoc]
      rfl
    · rw [hlist']
      show ledgerOf (t + (c.scrub t).ttl) _ = _
      rw [hcfg.1, List.append_assoc]
      rfl

/-- The eviction scan skips stale (superseded) leading ledger entries as
no-ops and, on an exactly-full map, deletes precisely the key of the first
ledger entry that still matches a live map entry, consuming the scanned
prefix. -/
theorem evictScan_skips_stale {V : Type} {cap : Int} {m : MapT V} {e : Int}
    {k : String} {v : V} (hk : mget m k = some (e, v))
    (hfull : (m.length : Int) = cap) :
    ∀ front : List (Int × String),
      (∀ q ∈ front, ∀ it : Int × V, mget m q.2 = some it → it.1 ≠ q.1) →
      ∀ rest, Cache.evictScan cap m (front ++ (e, k) :: rest) =
        some (mdel m k, front.length + 1) := by
  intro front
  induction front with
  | nil =>
    intro hstale rest
    rw [List.nil_append, evictScan_cons_full (le_of_eq hfull.symm),
        stepDelete_of_match hk]
    have hlt : ¬ cap ≤ ((mdel m k).length : Int) := by
      have h1 := mdel_length_lt hk
      omega
    rw [evictScan_not_full hlt]
    rfl
  | cons q front' ih =>
    intro hstale rest
    obtain ⟨e', k'⟩ := q
    have hstep : Cache.stepDelete m e' k' = m := by
      cases hg : mget m k' with
      | none => exact stepDelete_of_none hg e'
      | some it =>
        exact stepDelete_of_mismatch hg
          (hstale (e', k') (List.mem_cons_self _ _) it hg)
    rw [List.cons_append, evictScan_cons_full (le_of_eq hfull.symm), hstep,
        ih (fun q2 hq2 => hstale q2 (List.mem_cons_of_mem _ hq2)) rest]
    rfl

/-- `get` behaviour on a state whose map and ledger mirror a list of fresh
distinct pairs: absent keys miss, present keys hit with their value. -/
theorem get_entriesOf {V : Type} {c : Cache V} {e t : Int}
    {kvs : List (String × V)} (hmap : c.map = entriesOf e kvs)
    (hlist : c.list = ledgerOf e kvs) (hlt : t < e)
    (hnd : (kvs.map Prod.fst).Nodup) :
    (∀ k, k ∉ kvs.map Prod.fst → (c.get k t).2 = none) ∧
    (∀ q ∈ kvs, (c.get q.1 t).2 = some q.2) := by
  have hfresh : ∀ p ∈ c.list, t < p.1 := by
    rw [hlist]
    exact ledgerOf_fresh hlt kvs
  obtain ⟨hm, hl⟩ := scrub_fresh hfresh
  constructor
  · intro k hk
    have hmiss : mget (c.scrub t).map k = none := by
      rw [hm, hmap]
      exact entriesOf_mget_none hk
    rw [get_eq_miss hmiss]
  · intro q hq
    have hhit : mget (c.scrub t).map q.1 = some (e, q.2) := by
      rw [hm, hmap]
      exact mem_mget (entriesOf_nd e hnd) (entriesOf_mem hq)
    rw [get_eq_hit hhit hlt]

/-! ### Claim C3: eviction order -/

/-- C3: Eviction order — (i) with capacity `n`, from a freshly constructed
cache, setting `n + 1` pairs with distinct keys, in order, at a time `t`
(so none has expired) succeeds, and afterwards a `get` of the first key
answers absent (it was evicted by the last `set`) while a `get` of any later
key returns its value; (ii) in general, on an exactly-full map the eviction
scan skips stale ledger entries (whose expiration no longer matches the
map's entry for their key) as no-ops and deletes precisely the key of the
frontmost still-matching ledger entry, consuming the scanned prefix — so a
re-set key's eviction position is that of its most recent `set`. -/
theorem spec_C3 :
    (∀ (V : Type) (tl : Int) (i : Option Int) (t : Int) (n : Nat)
       (kvs : List (String × V)) (c0 : Cache V),
       Cache.new tl (n : Int) i = some c0 →
       kvs.length = n + 1 → (kvs.map Prod.fst).Nodup →
       ∃ c, setAll c0 t kvs = some c ∧
         (∀ h0 : 0 < kvs.length, (c.get (kvs.get ⟨0, h0⟩).1 t).2 = none) ∧
         (∀ (j : Nat) (hj : j < kvs.length), 1 ≤ j →
           (c.get (kvs.get ⟨j, hj⟩).1 t).2 = some (kvs.get ⟨j, hj⟩).2)) ∧
    (∀ (V : Type) (cap : Int) (m : MapT V) (front : List (Int × String))
       (e : Int) (k : String) (v : V) (rest : List (Int × String)),
       mget m k = some (e, v) → (m.length : Int) = cap →
       (∀ q ∈ front, ∀ it : Int × V, mget m q.2 = some it → it.1 ≠ q.1) →
       Cache.evictScan cap m (front ++ (e, k) :: rest) =
         some (mdel m k, front.length + 1)) := by
  constructor
  · intro V tl i t n kvs c0 hnew hlen hnd
    obtain ⟨hinv, httl, hcap, hint, hlast, hmap0, hlist0⟩ := new_spec hnew
    have h0 : 0 < c0.ttl := hinv.1
    have hn1 : 1 ≤ n := by
      have h2 := hinv.2.1
      rw [hcap] at h2
      exact_mod_cast h2
    obtain ⟨q0, tail0, rfl⟩ : ∃ q0 tail0, kvs = q0 :: tail0 := by
      cases kvs with
      | nil =>
        exfalso
        simp only [List.length_nil] at hlen
        omega
      | cons a b => exact ⟨a, b, rfl⟩
    obtain ⟨front', lastkv, rfl⟩ :
        ∃ front' lastkv, tail0 = front' ++ [lastkv] := by
      have hne : tail0 ≠ [] := by
        intro hc
        rw [hc] at hlen
        simp only [List.length_cons, List.length_nil] at hlen
        omega
      exact ⟨tail0.dropLast, tail0.getLast hne,
        (List.dropLast_append_getLast hne).symm⟩
    obtain ⟨k0, v0⟩ := q0
    obtain ⟨kn, vn⟩ := lastkv
    have hlen' : front'.length + 1 = n := by
      simp only [List.length_cons, List.length_append, List.length_nil] at hlen
      omega
    have hndK : (((k0, v0) :: (front' ++ [(kn, vn)])).map Prod.fst).Nodup := hnd
    simp only [List.map_cons, List.map_append, List.map_nil] at hndK
    have hq0notin : k0 ∉ front'.map Prod.fst ++ [kn] :=
      (List.nodup_cons.mp hndK).1
    have hndtail : (front'.map Prod.fst ++ [kn]).Nodup :=
      (List.nodup_cons.mp hndK).2
    have hlastnotin : kn ∉ front'.map Prod.fst := by
      intro hc
      exact (List.nodup_append.mp hndtail).2.2 hc (List.mem_cons_self _ _)
    have hq0front : k0 ∉ front'.map Prod.fst :=
      fun hc => hq0notin (List.mem_append_left _ hc)
    have hq0last : k0 ≠ kn := by
      intro hc
      exact hq0notin
        (List.mem_append_right _ (by rw [hc]; exact List.mem_cons_self _ _))
    have hfillnd :
        ((([] : List (String × V)) ++ ((k0, v0) :: front')).map Prod.fst).Nodup := by
      simp only [List.nil_append, List.map_cons]
      exact List.nodup_cons.mpr ⟨hq0front, (List.nodup_append.mp hndtail).1⟩
    have hfilllen :
        ((((([] : List (String × V)).length + ((k0, v0) :: front').length :
          Nat)) : Int)) ≤ c0.capacity := by
      rw [hcap]
      simp only [List.length_nil, List.length_cons]
      push_cast
      omega
    obtain ⟨c1, hfill, ht1, hcap1, hmap1, hlist1⟩ :=
      setAll_fill t ((k0, v0) :: front') c0 [] h0 (by rw [hmap0]; rfl)
        (by rw [hlist0]; rfl) hfillnd hfilllen
    simp only [List.nil_append] at hmap1 hlist1
    have hfresh1 : ∀ p ∈ c1.list, t < p.1 := by
      rw [hlist1]
      exact ledgerOf_fresh (by omega) _
    obtain ⟨hm1, hl1⟩ := scrub_fresh hfresh1
    have hcfgA := scrub_config c1 t
    have hfresh2 : ∀ p ∈ (c1.scrub t).list, t < p.1 := by
      rw [hl1]
      exact hfresh1
    obtain ⟨hm2, hl2⟩ := scrub_fresh hfresh2
    have hcfgB := scrub_config (c1.scrub t) t
    have hmr : ((c1.scrub t).scrub t).map = c1.map := hm2.trans hm1
    have hlr : ((c1.scrub t).scrub t).list = c1.list := hl2.trans hl1
    have hlenm : (c1.map.length : Int) = c1.capacity := by
      rw [hmap1, hcap1, hcap]
      rw [show (entriesOf (t + c0.ttl) ((k0, v0) :: front')).length =
        ((k0, v0) :: front').length from List.length_map _ _]
      simp only [List.length_cons]
      push_cast
      omega
    have hfull1 : (c1.scrub t).isFull = true := by
      refine isFull_true ?_
      rw [hm1, hcfgA.2.1, hlenm]
    have hmiss : mget ((c1.scrub t).scrub t).map kn = none := by
      rw [hmr, hmap1]
      refine entriesOf_mget_none ?_
      simp only [List.map_cons, List.mem_cons]
      rintro (hc | hc)
      · exact hq0last hc.symm
      · exact hlastnotin hc
    have hget : (c1.scrub t).get kn t = ((c1.scrub t).scrub t, none) :=
      get_eq_miss hmiss
    have hevmget : mget ((c1.scrub t).scrub t).map k0 =
        some (t + c0.ttl, v0) := by
      rw [hmr, hmap1]
      show mget ((k0, (t + c0.ttl, v0)) :: entriesOf (t + c0.ttl) front') k0 = _
      simp [mget]
    have hevfull : ((((c1.scrub t).scrub t).map.length : Nat) : Int) =
        ((c1.scrub t).scrub t).capacity := by
      rw [hmr, hcfgB.2.1, hcfgA.2.1, hlenm]
    have hscan := evictScan_skips_stale hevmget hevfull []
      (fun q hq => absurd hq (List.not_mem_nil q))
      (ledgerOf (t + c0.ttl) front')
    simp only [List.nil_append, List.length_nil] at hscan
    have hlistr : ((c1.scrub t).scrub t).list =
        (t + c0.ttl, k0) :: ledgerOf (t + c0.ttl) front' := by
      rw [hlr, hlist1]
      rfl
    have hscan' : Cache.evictScan ((c1.scrub t).scrub t).capacity
        ((c1.scrub t).scrub t).map ((c1.scrub t).scrub t).list =
        some (mdel ((c1.scrub t).scrub t).map k0, 1) := by
      rw [hlistr]
      exact hscan
    have hev : ((c1.scrub t).scrub t).evict = some { ((c1.scrub t).scrub t) with map := mdel ((c1.scrub t).scrub t).map k0, list := ((c1.scrub t).scrub t).list.drop 1 } := by
      show (Cache.evictScan _ _ _).map _ = _
      rw [hscan']
      rfl
    have hsetlast : c1.set kn vn t = some { ((c1.scrub t).scrub t) with map := mset (mdel ((c1.scrub t).scrub t).map k0) kn (t + c1.ttl, vn), list := (((c1.scrub t).scrub t).list.drop 1) ++ [(t + c1.ttl, kn)] } := by
      rw [set_eq, if_pos hfull1, hget]
      show (((c1.scrub t).scrub t).evict).map _ = _
      rw [hev]
      rfl
    have hfinmap : mset (mdel ((c1.scrub t).scrub t).map k0) kn
        (t + c1.ttl, vn) = entriesOf (t + c0.ttl) (front' ++ [(kn, vn)]) := by
      rw [show mdel ((c1.scrub t).scrub t).map k0 =
            entriesOf (t + c0.ttl) front' by
          rw [hmr, hmap1]
          exact mdel_entriesOf_cons _ (k0, v0) hq0front]
      rw [ht1, mset_of_mget_none (entriesOf_mget_none hlastnotin),
          entriesOf_append]
      rfl
    have hfinlist : (((c1.scrub t).scrub t).list.drop 1) ++ [(t + c1.ttl, kn)] =
        ledgerOf (t + c0.ttl) (front' ++ [(kn, vn)]) := by
      rw [hlistr, ht1, ledgerOf_append]
      rfl
    rw [hfinmap, hfinlist] at hsetlast
    have hndfin : ((front' ++ [(kn, vn)]).map Prod.fst).Nodup := by
      simp only [List.map_append, List.map_cons, List.map_nil]
      exact hndtail
    have hgets := get_entriesOf
      (c := { ((c1.scrub t).scrub t) with map := entriesOf (t + c0.ttl) (front' ++ [(kn, vn)]), list := ledgerOf (t + c0.ttl) (front' ++ [(kn, vn)]) })
      rfl rfl (show t < t + c0.ttl by omega) hndfin
    refine ⟨{ ((c1.scrub t).scrub t) with map := entriesOf (t + c0.ttl) (front' ++ [(kn, vn)]), list := ledgerOf (t + c0.ttl) (front' ++ [(kn, vn)]) }, ?_, ?_, ?_⟩
    · have happ : setAll c0 t ((k0, v0) :: (front' ++ [(kn, vn)])) =
          (setAll c0 t ((k0, v0) :: front')).bind
            fun c' => setAll c' t [(kn, vn)] :=
        setAll_append c0 t ((k0, v0) :: front') [(kn, vn)]
      rw [happ, hfill]
      show (c1.set kn vn t).bind (fun c' => setAll c' t []) = _
      rw [hsetlast]
      rfl
    · intro h0'
      refine hgets.1 k0 ?_
      simp only [List.map_append, List.map_cons, List.map_nil]
      exact hq0notin
    · intro j hj hj1
      obtain ⟨j', rfl⟩ : ∃ j', j = j' + 1 := ⟨j - 1, by omega⟩
      have hj2 : j' < (front' ++ [(kn, vn)]).length := by
        simp only [List.length_cons] at hj
        omega
      exact hgets.2 ((front' ++ [(kn, vn)]).get ⟨j', hj2⟩)
        (List.get_mem _ _ _)
  · intro V cap m front e k v rest hk hfull hstale
    exact evictScan_skips_stale hk hfull front hstale rest

/-- Witness for C3: capacity 2, keys "a","b","c" set at time 0 (matching the
repository's eviction test shape), and a concrete eviction scan that skips
one stale ledger entry. -/
theorem spec_C3_witness :
    (∃ c, setAll (Cache.mk 60000 ((2 : Nat) : Int) 10000 none [] []) 0
        [("a", (1 : Nat)), ("b", 2), ("c", 3)] = some c ∧
      (∀ h0 : 0 < [("a", (1 : Nat)), ("b", 2), ("c", 3)].length,
        (c.get ([("a", (1 : Nat)), ("b", 2), ("c", 3)].get ⟨0, h0⟩).1 0).2 =
          none) ∧
      (∀ (j : Nat) (hj : j < [("a", (1 : Nat)), ("b", 2), ("c", 3)].length),
        1 ≤ j →
        (c.get ([("a", (1 : Nat)), ("b", 2), ("c", 3)].get ⟨j, hj⟩).1 0).2 =
          some ([("a", (1 : Nat)), ("b", 2), ("c", 3)].get ⟨j, hj⟩).2)) ∧
    Cache.evictScan 1 [("x", ((5 : Int), (0 : Nat)))]
        ([(3, "x")] ++ (5, "x") :: []) =
      some (mdel [("x", ((5 : Int), (0 : Nat)))] "x", [(3, "x")].length + 1) :=
  ⟨spec_C3.1 Nat 60000 none 0 2 [("a", 1), ("b", 2), ("c", 3)] _
    (show Cache.new 60000 ((2 : Nat) : Int) none =
      some (Cache.mk 60000 ((2 : Nat) : Int) 10000 none [] []) from by decide)
    (by decide) (by decide),
   spec_C3.2 Nat 1 [("x", (5, 0))] [(3, "x")] 5 "x" 0 [] (by decide) (by decide)
    (by
      intro q hq it hit
      rcases List.mem_singleton.mp hq with rfl
      have h5 : ((5 : Int), (0 : Nat)) = it :=
        Option.some.inj (show some ((5 : Int), (0 : Nat)) = some it from hit)
      rw [← h5]
      decide)⟩
